import Mathlib

/-!
# SmartHire core pipeline: shallow embedding and verification

This file embeds the core text-processing, retrieval and matching logic of
the SmartHire repository in Lean 4 and proves (or refutes) the specified
properties of:

* `clean_text` (scripts/clean_text_to_json.py) — the text normalizer;
* `build_sections` / `detect_section` (scripts/build_sections.py) — the
  two-pass section segmenter, including a semantic model of its regex
  fallback patterns;
* `build_resume_text` (both variants, scripts/match_resumes.py and
  scripts/query_resumes.py) — the resume text composer;
* `extract_keywords`, `search_by_keywords`, `search_resumes`
  (scripts/query_resumes.py) — the hybrid retriever;
* `score_resume`, `match_top_candidates` (scripts/match_resumes.py) — the
  candidate matcher.

Python strings are modelled as `List Char` (`Str`).  Python floats that
arise as retrieval scores are modelled as rationals `ℚ`; every ordering
property proved below depends only on the ordered-field structure shared
by both.  External collaborators (the LLM scoring call together with its
markdown stripping and `json.loads`, and the Chroma vector index) are
modelled as explicit parameters, exactly at the boundary the code itself
gives them (a raised exception becomes an `error` / `none` value; a reply
becomes the parsed field map).
-/

/-- Python strings, as lists of characters. -/
abbrev Str := List Char

/-- The set of characters Python's `str.strip()` / `str.isspace()` (and the
regex class `\s` in Unicode mode) treats as whitespace. -/
def isPyWs (c : Char) : Bool :=
  let n := c.toNat
  decide ((9 ≤ n ∧ n ≤ 13) ∨ (28 ≤ n ∧ n ≤ 31) ∨ n = 32 ∨ n = 133 ∨ n = 160 ∨
    n = 0x1680 ∨ (0x2000 ≤ n ∧ n ≤ 0x200a) ∨ n = 0x2028 ∨ n = 0x2029 ∨
    n = 0x202f ∨ n = 0x205f ∨ n = 0x3000)

/-- Python `str.lstrip()`. -/
def pyLstrip (s : Str) : Str := s.dropWhile isPyWs

/-- Python `str.rstrip()`. -/
def pyRstrip (s : Str) : Str := (s.reverse.dropWhile isPyWs).reverse

/-- Python `str.strip()`: drop whitespace from both ends. -/
def pyStrip (s : Str) : Str := pyRstrip (pyLstrip s)

/-- Python `str.lower()`, restricted to its ASCII action (every string the
claims touch is ASCII). -/
def lowerStr (s : Str) : Str := s.map Char.toLower

/-- Python `sep.join(xs)`. -/
def joinSep (sep : Str) : List Str → Str
  | [] => []
  | [x] => x
  | x :: y :: xs => x ++ sep ++ joinSep sep (y :: xs)

/-!
## Text Normalizer: `clean_text` (scripts/clean_text_to_json.py)

`clean_text` is the sequence
`text.replace("\r\n", "\n").replace("\r", "\n")`, then
`re.sub(r"[ \t]+", " ", ...)`, then `re.sub(r"\n{3,}", "\n\n", ...)`,
then `.strip()`, guarded by `if not text: return ""`.
-/

/-- `text.replace("\r\n", "\n")`: left-to-right, non-overlapping. -/
def replaceCRLF : Str → Str
  | [] => []
  | [c] => [c]
  | c :: d :: cs =>
    if c = '\r' ∧ d = '\n' then '\n' :: replaceCRLF cs
    else c :: replaceCRLF (d :: cs)

/-- `text.replace("\r", "\n")` (single-character replacement). -/
def crToNl (s : Str) : Str := s.map (fun c => if c = '\r' then '\n' else c)

def isSpTab (c : Char) : Bool := c = ' ' || c = '\t'

/-- `re.sub(r"[ \t]+", " ", text)`: every maximal run of spaces/tabs becomes
one space.  The flag records whether we are inside such a run (in which case
the single replacement space has already been emitted). -/
def collapseSpacesAux : Bool → Str → Str
  | _, [] => []
  | inRun, c :: cs =>
    if isSpTab c then
      if inRun then collapseSpacesAux true cs
      else ' ' :: collapseSpacesAux true cs
    else c :: collapseSpacesAux false cs

def collapseSpaces (s : Str) : Str := collapseSpacesAux false s

/-- `re.sub(r"\n{3,}", "\n\n", text)`: every maximal run of three or more
newlines becomes exactly two, shorter runs are untouched; equivalently, of
each maximal newline run only the first two characters are kept.  The
counter records how many newlines of the current run have been emitted. -/
def collapseNewlinesAux : Nat → Str → Str
  | _, [] => []
  | k, c :: cs =>
    if c = '\n' then
      if k < 2 then '\n' :: collapseNewlinesAux (k + 1) cs
      else collapseNewlinesAux k cs
    else c :: collapseNewlinesAux 0 cs

def collapseNewlines (s : Str) : Str := collapseNewlinesAux 0 s

/-- `clean_text` from scripts/clean_text_to_json.py. -/
def cleanText (t : Str) : Str :=
  if t = [] then []
  else pyStrip (collapseNewlines (collapseSpaces (crToNl (replaceCRLF t))))

/-!
### Normal form for `cleanText` outputs

An output of `cleanText` contains no carriage return, no tab, no two
adjacent spaces/tabs, no three consecutive newlines, and no leading or
trailing whitespace.  On strings of this shape every stage of `cleanText`
is the identity, which yields idempotence (claim C3).
-/

def headSpTab : Str → Bool
  | [] => false
  | c :: _ => isSpTab c

def noDoubleSpace : Str → Bool
  | a :: b :: t => !(isSpTab a && isSpTab b) && noDoubleSpace (b :: t)
  | _ => true

def headNL : Str → Bool
  | [] => false
  | c :: _ => decide (c = '\n')

def headTwoNL : Str → Bool
  | a :: b :: _ => decide (a = '\n') && decide (b = '\n')
  | _ => false

def noTripleNL : Str → Bool
  | a :: b :: c :: t =>
    !(decide (a = '\n') && decide (b = '\n') && decide (c = '\n')) && noTripleNL (b :: c :: t)
  | _ => true

def leadingNL : Str → Nat
  | [] => 0
  | c :: t => if c = '\n' then leadingNL t + 1 else 0

theorem noDoubleSpace_cons (c : Char) (l : Str) :
    noDoubleSpace (c :: l) = (!(isSpTab c && headSpTab l) && noDoubleSpace l) := by
  cases l <;> simp [noDoubleSpace, headSpTab]

theorem noTripleNL_cons (c : Char) (l : Str) :
    noTripleNL (c :: l) = (!(decide (c = '\n') && headTwoNL l) && noTripleNL l) := by
  match l with
  | [] => simp [noTripleNL, headTwoNL]
  | [d] => simp [noTripleNL, headTwoNL]
  | d :: e :: t => simp [noTripleNL, headTwoNL, Bool.and_assoc]

theorem replaceCRLF_eq_self : ∀ l : Str, '\r' ∉ l → replaceCRLF l = l
  | [], _ => rfl
  | [_], _ => rfl
  | c :: d :: cs, h => by
    have hc : c ≠ '\r' := fun e => h (e ▸ List.mem_cons_self c (d :: cs))
    rw [replaceCRLF, if_neg (fun hp => hc hp.1),
      replaceCRLF_eq_self (d :: cs) (fun hm => h (List.mem_cons_of_mem _ hm))]

theorem noCR_crToNl (l : Str) : '\r' ∉ crToNl l := by
  intro h
  simp only [crToNl, List.mem_map] at h
  obtain ⟨c, _, hfc⟩ := h
  by_cases hc : c = '\r' <;> simp [hc] at hfc

theorem crToNl_eq_self (l : Str) (h : '\r' ∉ l) : crToNl l = l := by
  induction l with
  | nil => rfl
  | cons c cs ih =>
    have hc : c ≠ '\r' := fun e => h (e ▸ List.mem_cons_self c cs)
    simp only [crToNl, List.map_cons, if_neg hc]
    exact congrArg (c :: ·) (ih (fun hm => h (List.mem_cons_of_mem _ hm)))

theorem mem_collapseSpacesAux :
    ∀ (b : Bool) (l : Str) (c : Char), c ∈ collapseSpacesAux b l →
      c = ' ' ∨ (c ∈ l ∧ isSpTab c = false)
  | _, [], _, h => by simp [collapseSpacesAux] at h
  | b, x :: xs, c, h => by
    by_cases hx : isSpTab x = true
    · simp only [collapseSpacesAux, hx, if_pos] at h
      cases b with
      | true =>
        rcases mem_collapseSpacesAux true xs c h with h1 | ⟨h2, h3⟩
        · exact Or.inl h1
        · exact Or.inr ⟨List.mem_cons_of_mem _ h2, h3⟩
      | false =>
        rcases List.mem_cons.mp h with h1 | h1
        · exact Or.inl h1
        · rcases mem_collapseSpacesAux true xs c h1 with h2 | ⟨h2, h3⟩
          · exact Or.inl h2
          · exact Or.inr ⟨List.mem_cons_of_mem _ h2, h3⟩
    · simp only [collapseSpacesAux, hx, if_neg, Bool.not_eq_true] at h
      rcases List.mem_cons.mp h with h1 | h1
      · subst h1
        exact Or.inr ⟨List.mem_cons_self _ _, Bool.not_eq_true _ ▸ hx⟩
      · rcases mem_collapseSpacesAux false xs c h1 with h2 | ⟨h2, h3⟩
        · exact Or.inl h2
        · exact Or.inr ⟨List.mem_cons_of_mem _ h2, h3⟩

theorem headSpTab_collapseSpacesAux_true (l : Str) :
    headSpTab (collapseSpacesAux true l) = false := by
  induction l with
  | nil => rfl
  | cons c cs ih =>
    by_cases hc : isSpTab c = true
    · simpa [collapseSpacesAux, hc] using ih
    · simp only [Bool.not_eq_true] at hc
      simp [collapseSpacesAux, hc, headSpTab]

theorem noDoubleSpace_collapseSpacesAux (l : Str) :
    ∀ b, noDoubleSpace (collapseSpacesAux b l) = true := by
  induction l with
  | nil => intro b; rfl
  | cons c cs ih =>
    intro b
    by_cases hc : isSpTab c = true
    · cases b with
      | true => simpa [collapseSpacesAux, hc] using ih true
      | false =>
        simp only [collapseSpacesAux, hc, if_pos, Bool.false_eq_true, if_false]
        rw [noDoubleSpace_cons, headSpTab_collapseSpacesAux_true, ih true]
        simp
    · simp only [Bool.not_eq_true] at hc
      simp only [collapseSpacesAux, hc, Bool.false_eq_true, if_false]
      rw [noDoubleSpace_cons, hc, ih false]
      simp

theorem collapseSpacesAux_true_eq_false (l : Str) (h : headSpTab l = false) :
    collapseSpacesAux true l = collapseSpacesAux false l := by
  cases l with
  | nil => rfl
  | cons c cs => simp [collapseSpacesAux, headSpTab.eq_def] at h ⊢; simp [h]

theorem collapseSpacesAux_eq_self (l : Str) (ht : '\t' ∉ l) (hd : noDoubleSpace l = true) :
    collapseSpacesAux false l = l := by
  induction l with
  | nil => rfl
  | cons c cs ih =>
    have htcs : '\t' ∉ cs := fun hm => ht (List.mem_cons_of_mem _ hm)
    rw [noDoubleSpace_cons] at hd
    have hdcs : noDoubleSpace cs = true := by
      rcases Bool.and_eq_true _ _ |>.mp hd with ⟨_, h2⟩; exact h2
    by_cases hc : isSpTab c = true
    · have hcsp : c = ' ' := by
        rcases Bool.or_eq_true _ _ |>.mp hc with h1 | h1
        · exact decide_eq_true_eq.mp h1
        · exact absurd (decide_eq_true_eq.mp h1 ▸ List.mem_cons_self c cs)
            (fun hm => ht ((decide_eq_true_eq.mp h1) ▸ hm))
      have hhead : headSpTab cs = false := by
        rcases Bool.and_eq_true _ _ |>.mp hd with ⟨h1, _⟩
        rcases Bool.not_eq_true' .. |>.mp h1 |> Bool.and_eq_false_iff.mp with h2 | h2
        · exact absurd hc (by simp [h2])
        · exact h2
      simp only [collapseSpacesAux, hc, if_pos, Bool.false_eq_true, if_false]
      rw [collapseSpacesAux_true_eq_false cs hhead, ih htcs hdcs, hcsp]
    · simp only [Bool.not_eq_true] at hc
      simp only [collapseSpacesAux, hc, Bool.false_eq_true, if_false]
      rw [ih htcs hdcs]

theorem mem_collapseNewlinesAux :
    ∀ (k : Nat) (l : Str) (c : Char), c ∈ collapseNewlinesAux k l → c ∈ l
  | _, [], _, h => by simp [collapseNewlinesAux] at h
  | k, x :: xs, c, h => by
    by_cases hx : x = '\n'
    · subst hx
      simp only [collapseNewlinesAux, if_pos rfl] at h
      by_cases hk : k < 2
      · simp only [hk, if_pos] at h
        rcases List.mem_cons.mp h with h1 | h1
        · exact h1 ▸ List.mem_cons_self _ _
        · exact List.mem_cons_of_mem _ (mem_collapseNewlinesAux (k + 1) xs c h1)
      · simp only [hk, if_neg, if_false] at h
        exact List.mem_cons_of_mem _ (mem_collapseNewlinesAux k xs c h)
    · simp only [collapseNewlinesAux, hx, if_neg, if_false] at h
      rcases List.mem_cons.mp h with h1 | h1
      · exact h1 ▸ List.mem_cons_self _ _
      · exact List.mem_cons_of_mem _ (mem_collapseNewlinesAux 0 xs c h1)

theorem headTwoNL_leadingNL {l : Str} (h : headTwoNL l = true) : 2 ≤ leadingNL l := by
  match l with
  | [] => simp [headTwoNL] at h
  | [a] => simp [headTwoNL] at h
  | a :: b :: t =>
    simp only [headTwoNL, Bool.and_eq_true, decide_eq_true_eq] at h
    simp [leadingNL, h.1, h.2]

theorem noTripleNL_leadingNL_collapseNewlinesAux (l : Str) :
    ∀ k, noTripleNL (collapseNewlinesAux k l) = true ∧
      leadingNL (collapseNewlinesAux k l) ≤ 2 - k := by
  induction l with
  | nil => intro k; exact ⟨rfl, by simp [collapseNewlinesAux, leadingNL]⟩
  | cons c cs ih =>
    intro k
    by_cases hc : c = '\n'
    · subst hc
      by_cases hk : k < 2
      · simp only [collapseNewlinesAux, if_pos rfl, hk, if_pos]
        obtain ⟨ih1, ih2⟩ := ih (k + 1)
        constructor
        · rw [noTripleNL_cons, ih1]
          have hh : headTwoNL (collapseNewlinesAux (k + 1) cs) = false := by
            by_contra hcon
            have := headTwoNL_leadingNL (Bool.not_eq_false _ |>.mp hcon)
            omega
          simp [hh]
        · simp only [leadingNL, if_pos rfl, if_true]
          omega
      · simp only [collapseNewlinesAux, if_pos rfl, hk, if_neg, if_false]
        exact ih k
    · simp only [collapseNewlinesAux, hc, if_neg, if_false]
      obtain ⟨ih1, _⟩ := ih 0
      refine ⟨?_, by simp [leadingNL, hc]⟩
      rw [noTripleNL_cons, ih1]
      simp [hc]

theorem headSpTab_collapseNewlinesAux_zero (l : Str) :
    headSpTab (collapseNewlinesAux 0 l) = headSpTab l := by
  cases l with
  | nil => rfl
  | cons c cs =>
    by_cases hc : c = '\n'
    · subst hc
      simp [collapseNewlinesAux, headSpTab, isSpTab]
    · simp [collapseNewlinesAux, hc, headSpTab]

theorem noDoubleSpace_collapseNewlinesAux (l : Str) :
    ∀ k, noDoubleSpace l = true → noDoubleSpace (collapseNewlinesAux k l) = true := by
  induction l with
  | nil => intro k _; rfl
  | cons c cs ih =>
    intro k hl
    rw [noDoubleSpace_cons] at hl
    obtain ⟨hl1, hl2⟩ := Bool.and_eq_true _ _ |>.mp hl
    by_cases hc : c = '\n'
    · subst hc
      by_cases hk : k < 2
      · simp only [collapseNewlinesAux, if_pos rfl, hk, if_pos]
        rw [noDoubleSpace_cons, ih (k + 1) hl2]
        simp [isSpTab]
      · simp only [collapseNewlinesAux, if_pos rfl, hk, if_neg, if_false]
        exact ih k hl2
    · simp only [collapseNewlinesAux, hc, if_neg, if_false]
      rw [noDoubleSpace_cons, ih 0 hl2, headSpTab_collapseNewlinesAux_zero]
      simpa using hl1

theorem collapseNewlinesAux_eq_self (l : Str) :
    ∀ k, noTripleNL l = true → (k = 1 → headTwoNL l = false) →
      (2 ≤ k → headNL l = false) → collapseNewlinesAux k l = l := by
  induction l with
  | nil => intro k _ _ _; rfl
  | cons c cs ih =>
    intro k h3 h1 h2
    by_cases hc : c = '\n'
    · subst hc
      match k with
      | 0 =>
        simp only [collapseNewlinesAux, if_pos rfl, if_pos (by omega : (0 : Nat) < 2)]
        rw [noTripleNL_cons] at h3
        obtain ⟨hh, ht⟩ := Bool.and_eq_true _ _ |>.mp h3
        refine congrArg _ (ih 1 ht (fun _ => ?_) (by omega))
        simpa using hh
      | 1 =>
        simp only [collapseNewlinesAux, if_pos rfl, if_pos (by omega : (1 : Nat) < 2)]
        have hcs : headNL cs = false := by
          have := h1 rfl
          cases cs with
          | nil => rfl
          | cons d ds => simpa [headTwoNL, headNL] using this
        rw [noTripleNL_cons] at h3
        obtain ⟨_, ht⟩ := Bool.and_eq_true _ _ |>.mp h3
        exact congrArg _ (ih 2 ht (by omega) (fun _ => hcs))
      | n + 2 =>
        exact absurd (h2 (by omega)) (by simp [headNL])
    · simp only [collapseNewlinesAux, hc, if_neg, if_false]
      rw [noTripleNL_cons] at h3
      obtain ⟨_, ht⟩ := Bool.and_eq_true _ _ |>.mp h3
      exact congrArg _ (ih 0 ht (by omega) (by omega))

theorem dropWhile_head_not (p : Char → Bool) :
    ∀ (l : Str) (c : Char), (l.dropWhile p).head? = some c → p c = false
  | [], c, h => by simp [List.dropWhile] at h
  | x :: xs, c, h => by
    by_cases hx : p x = true
    · rw [List.dropWhile_cons, if_pos hx] at h
      exact dropWhile_head_not p xs c h
    · rw [List.dropWhile_cons, if_neg hx] at h
      cases h
      exact Bool.not_eq_true _ |>.mp hx

theorem dropWhile_eq_self_of_head (p : Char → Bool) (l : Str)
    (h : ∀ c, l.head? = some c → p c = false) : l.dropWhile p = l := by
  cases l with
  | nil => rfl
  | cons x xs => rw [List.dropWhile_cons, if_neg (by simp [h x rfl])]

theorem pyRstrip_decomp (s : Str) :
    s = pyRstrip s ++ (s.reverse.takeWhile isPyWs).reverse := by
  have h := List.takeWhile_append_dropWhile isPyWs s.reverse
  have h2 := congrArg List.reverse h
  rw [List.reverse_append, List.reverse_reverse] at h2
  exact h2.symm

theorem pyRstrip_head? (s : Str) (h : pyRstrip s ≠ []) : (pyRstrip s).head? = s.head? := by
  conv_rhs => rw [pyRstrip_decomp s]
  rw [List.head?_append_of_ne_nil _ h]

theorem pyRstrip_getLast?_not (s : Str) (c : Char) (h : (pyRstrip s).getLast? = some c) :
    isPyWs c = false := by
  rw [pyRstrip, List.getLast?_reverse] at h
  exact dropWhile_head_not _ _ _ h

theorem mem_pyStrip (s : Str) (c : Char) (h : c ∈ pyStrip s) : c ∈ s := by
  have h1 : c ∈ pyLstrip s := by
    rw [pyStrip, pyRstrip] at h
    rw [List.mem_reverse] at h
    have := (List.dropWhile_sublist isPyWs).mem h
    rwa [List.mem_reverse] at this
  exact (List.dropWhile_sublist isPyWs).mem h1

theorem pyStrip_head?_not (s : Str) (c : Char) (h : (pyStrip s).head? = some c) :
    isPyWs c = false := by
  have hne : pyStrip s ≠ [] := by intro he; rw [he] at h; cases h
  rw [pyStrip] at h hne
  rw [pyRstrip_head? _ hne] at h
  exact dropWhile_head_not _ _ _ h

theorem pyStrip_getLast?_not (s : Str) (c : Char) (h : (pyStrip s).getLast? = some c) :
    isPyWs c = false :=
  pyRstrip_getLast?_not _ _ h

theorem pyStrip_eq_self (s : Str)
    (hh : ∀ c, s.head? = some c → isPyWs c = false)
    (hl : ∀ c, s.getLast? = some c → isPyWs c = false) : pyStrip s = s := by
  have h1 : pyLstrip s = s := dropWhile_eq_self_of_head _ _ hh
  rw [pyStrip, h1, pyRstrip, dropWhile_eq_self_of_head _ _ ?_, List.reverse_reverse]
  intro c hc
  rw [List.head?_reverse] at hc
  exact hl c hc

theorem headSpTab_append (a b : Str) (ha : a ≠ []) : headSpTab (a ++ b) = headSpTab a := by
  cases a with
  | nil => exact absurd rfl ha
  | cons x xs => rfl

theorem noDoubleSpace_tail {c : Char} {l : Str} (h : noDoubleSpace (c :: l) = true) :
    noDoubleSpace l = true := by
  rw [noDoubleSpace_cons] at h
  exact (Bool.and_eq_true _ _ |>.mp h).2

theorem noDoubleSpace_append_right :
    ∀ (a b : Str), noDoubleSpace (a ++ b) = true → noDoubleSpace b = true
  | [], _, h => h
  | _ :: xs, b, h => noDoubleSpace_append_right xs b (noDoubleSpace_tail h)

theorem noDoubleSpace_append_left :
    ∀ (a b : Str), noDoubleSpace (a ++ b) = true → noDoubleSpace a = true
  | [], _, _ => rfl
  | x :: xs, b, h => by
    rw [List.cons_append, noDoubleSpace_cons] at h
    obtain ⟨h1, h2⟩ := Bool.and_eq_true _ _ |>.mp h
    rw [noDoubleSpace_cons, noDoubleSpace_append_left xs b h2]
    cases hxs : xs with
    | nil => simp [headSpTab]
    | cons y ys =>
      rw [hxs] at h1
      rw [← headSpTab_append (y :: ys) b (by simp)]
      simpa using h1

theorem noTripleNL_tail {c : Char} {l : Str} (h : noTripleNL (c :: l) = true) :
    noTripleNL l = true := by
  rw [noTripleNL_cons] at h
  exact (Bool.and_eq_true _ _ |>.mp h).2

theorem headTwoNL_append (a b : Str) (ha : headTwoNL a = true) :
    headTwoNL (a ++ b) = true := by
  match a with
  | [] => simp [headTwoNL] at ha
  | [x] => simp [headTwoNL] at ha
  | x :: y :: t => simpa [headTwoNL] using ha

theorem noTripleNL_append_right :
    ∀ (a b : Str), noTripleNL (a ++ b) = true → noTripleNL b = true
  | [], _, h => h
  | _ :: xs, b, h => noTripleNL_append_right xs b (noTripleNL_tail h)

theorem noTripleNL_append_left :
    ∀ (a b : Str), noTripleNL (a ++ b) = true → noTripleNL a = true
  | [], _, _ => rfl
  | x :: xs, b, h => by
    rw [List.cons_append, noTripleNL_cons] at h
    obtain ⟨h1, h2⟩ := Bool.and_eq_true _ _ |>.mp h
    rw [noTripleNL_cons, noTripleNL_append_left xs b h2]
    by_cases hx : headTwoNL xs = true
    · rw [headTwoNL_append xs b hx, Bool.and_true, Bool.not_eq_true'] at h1
      simp [h1]
    · simp only [Bool.not_eq_true] at hx
      simp [hx]

/-- Claim C3: the text normalizer `clean_text` is a pure total function and
is idempotent: for every input string `t`,
`clean_text(clean_text(t)) == clean_text(t)`. -/
theorem c3_cleanText_idempotent (t : Str) : cleanText (cleanText t) = cleanText t := by
  by_cases ht : t = []
  · simp [ht, cleanText]
  · have hw : cleanText t = pyStrip (collapseNewlines (collapseSpaces (crToNl (replaceCRLF t)))) := by
      rw [cleanText, if_neg ht]
    set u := crToNl (replaceCRLF t) with hu
    set sp := collapseSpaces u with hsp
    set nl := collapseNewlines sp with hnl
    set w := pyStrip nl with hwdef
    rw [hw]
    have hCR : '\r' ∉ w := by
      intro hc
      have h1 := mem_pyStrip _ _ hc
      have h2 := mem_collapseNewlinesAux 0 sp _ h1
      rcases mem_collapseSpacesAux false u _ h2 with h3 | ⟨h3, _⟩
      · exact absurd h3 (by decide)
      · exact noCR_crToNl _ h3
    have hTab : '\t' ∉ w := by
      intro hc
      have h1 := mem_pyStrip _ _ hc
      have h2 := mem_collapseNewlinesAux 0 sp _ h1
      rcases mem_collapseSpacesAux false u _ h2 with h3 | ⟨_, h4⟩
      · exact absurd h3 (by decide)
      · exact absurd h4 (by decide)
    have hstep : ∀ p : Str → Bool,
        (∀ a b : Str, p (a ++ b) = true → p b = true) →
        (∀ a b : Str, p (a ++ b) = true → p a = true) →
        p nl = true → p w = true := by
      intro p hr hl hnlp
      have d3 : p (pyLstrip nl) = true := by
        apply hr (nl.takeWhile isPyWs) (pyLstrip nl)
        show p (nl.takeWhile isPyWs ++ nl.dropWhile isPyWs) = true
        rw [List.takeWhile_append_dropWhile]
        exact hnlp
      have d4 := pyRstrip_decomp (pyLstrip nl)
      apply hl w ((pyLstrip nl).reverse.takeWhile isPyWs).reverse
      show p (pyRstrip (pyLstrip nl) ++ ((pyLstrip nl).reverse.takeWhile isPyWs).reverse) = true
      rw [← d4]
      exact d3
    have hD : noDoubleSpace w = true :=
      hstep noDoubleSpace noDoubleSpace_append_right noDoubleSpace_append_left
        (noDoubleSpace_collapseNewlinesAux sp 0 (noDoubleSpace_collapseSpacesAux u false))
    have hT : noTripleNL w = true :=
      hstep noTripleNL noTripleNL_append_right noTripleNL_append_left
        (noTripleNL_leadingNL_collapseNewlinesAux sp 0).1
    by_cases hw0 : w = []
    · rw [hw0]; simp [cleanText]
    · rw [cleanText, if_neg hw0, replaceCRLF_eq_self w hCR, crToNl_eq_self w hCR,
        show collapseSpaces w = w from collapseSpacesAux_eq_self w hTab hD,
        show collapseNewlines w = w from
          collapseNewlinesAux_eq_self w 0 hT (fun h => absurd h (by omega)) (fun h => absurd h (by omega))]
      exact pyStrip_eq_self w (fun c hc => pyStrip_head?_not nl c hc)
        (fun c hc => pyStrip_getLast?_not nl c hc)

/-!
## Section Segmenter (scripts/build_sections.py)

Pass 1 is a line scan with a current-section cursor; pass 2 is a regex
fallback.  `text.splitlines()` is modelled with Python's full set of line
boundaries (`\n`, `\r`, `\r\n`, `\v`, `\f`, `\x1c`–`\x1e`, `\x85`,
` `, ` `).
-/

/-- Characters `str.splitlines()` treats as line boundaries. -/
def isLineBreak (c : Char) : Bool :=
  let n := c.toNat
  decide (n = 10 ∨ n = 13 ∨ n = 11 ∨ n = 12 ∨ n = 28 ∨ n = 29 ∨ n = 30 ∨
    n = 133 ∨ n = 0x2028 ∨ n = 0x2029)

/-- Worker for `splitlines`: `acc` is the current (unterminated) line. -/
def splitlinesGo (acc : Str) : Str → List Str
  | [] => if acc.isEmpty then [] else [acc]
  | '\r' :: '\n' :: r => acc :: splitlinesGo [] r
  | c :: r => if isLineBreak c then acc :: splitlinesGo [] r else splitlinesGo (acc ++ [c]) r

/-- Python `str.splitlines()` (no trailing empty line; `\r\n` is one break). -/
def splitlines (s : Str) : List Str := splitlinesGo [] s

/-- Resume section names, with the catch-all `other` bucket. -/
inductive Section where
  | summary | experience | education | skills | certifications | other
deriving DecidableEq, Repr

/-- `SECTION_KEYWORDS` from scripts/build_sections.py (dict order). -/
def SECTION_KEYWORDS : Section → List Str
  | .summary => ["summary".toList, "professional summary".toList, "profile".toList,
      "overview".toList]
  | .experience => ["experience".toList, "professional experience".toList,
      "work experience".toList, "employment".toList]
  | .education => ["education".toList, "education and training".toList, "academic".toList]
  | .skills => ["skills".toList, "skill highlights".toList, "core qualifications".toList,
      "competencies".toList]
  | .certifications => ["certifications".toList, "licenses".toList]
  | .other => []

/-- The five named sections, in the iteration order of the Python dict. -/
def namedSections : List Section :=
  [.summary, .experience, .education, .skills, .certifications]

/-- `normalize` from scripts/build_sections.py: `text.lower().strip()`. -/
def normalizeLine (s : Str) : Str := pyStrip (lowerStr s)

/-- `detect_section` from scripts/build_sections.py: the first section one of
whose synonyms equals the lower-cased, trimmed line. -/
def detectSection (line : Str) : Option Section :=
  namedSections.find? (fun s => (SECTION_KEYWORDS s).any (fun kw => normalizeLine line = kw))

/-- A line is skipped by pass 1 when `line.strip()` is falsy (empty). -/
def isBlankLine (l : Str) : Bool := (pyStrip l).isEmpty

/-- Pass 1 of `build_sections`: the buffer-filling loop.  `cur` is the
current-section cursor, `buf` the per-section line buffers. -/
def scanLines : List Str → Section → (Section → List Str) → (Section → List Str)
  | [], _, buf => buf
  | l :: ls, cur, buf =>
    if isBlankLine l then scanLines ls cur buf
    else
      match detectSection l with
      | some s => scanLines ls s buf
      | none => scanLines ls cur (fun k => if k = cur then buf k ++ [l] else buf k)

/-- Pass 1 result for one section: its buffered lines joined with newlines
and stripped. -/
def pass1 (t : Str) (k : Section) : Str :=
  pyStrip (joinSep ['\n'] (scanLines (splitlines t) .other (fun _ => []) k))

/-!
### Pass 2: the regex fallback

`REGEX_PATTERNS` maps each named section to a pattern of the shape
`(?i)(alt1|alt2|...)[\s:]+(.*?)(?=\n[A-Z][a-z ]+|\Z)` searched with
`re.DOTALL | re.MULTILINE`.  Semantics of `re.search` for this shape:

* the match starts at the leftmost position where some alternative (tried
  in pattern order) matches case-insensitively and is followed by at least
  one `[\s:]` character;
* `[\s:]+` is greedy, so the capture starts after the maximal run of
  whitespace/colon characters;
* `(.*?)` is lazy and the lookahead alternative `\Z` always succeeds at
  the end, so the capture ends at the first position at or after its start
  where `\n[A-Z][a-z ]+` matches — with `(?i)` in force the character
  classes `[A-Z]` and `[a-z ]` match letters of BOTH cases;
* `certifications?` and `licenses?` each expand to the greedy order
  (with-`s` first, then without).
-/

/-- The alternation of each `REGEX_PATTERNS` entry, in the order the regex
engine tries the alternatives. -/
def REGEX_KWS : Section → List Str
  | .summary => ["summary".toList, "objective".toList, "profile".toList, "overview".toList]
  | .experience => ["experience".toList, "work history".toList, "employment".toList]
  | .education => ["education".toList, "academic".toList, "education and training".toList]
  | .skills => ["skills".toList, "competencies".toList, "technologies".toList,
      "core qualifications".toList]
  | .certifications => ["certifications".toList, "certification".toList,
      "licenses".toList, "license".toList]
  | .other => []

/-- Case-insensitive prefix test ((?i) literal matching, ASCII case fold). -/
def ciPrefix : Str → Str → Bool
  | [], _ => true
  | _ :: _, [] => false
  | p :: ps, c :: cs => (Char.toLower c = Char.toLower p : Bool) && ciPrefix ps cs

/-- The regex class `[\s:]`. -/
def isSepChar (c : Char) : Bool := isPyWs c || c = ':'

/-- First alternative that matches case-insensitively at the head of `s` and
is followed by at least one `[\s:]` character; returns its length. -/
def tryAlts (alts : List Str) (s : Str) : Option Nat :=
  alts.findSome? fun a =>
    if ciPrefix a s && headPred isSepChar (s.drop a.length) then some a.length else none
where
  headPred (p : Char → Bool) : Str → Bool
    | [] => false
    | c :: _ => p c

/-- The lookahead `\n[A-Z][a-z ]+` under `re.IGNORECASE`: a newline followed
by a letter (either case) followed by a letter (either case) or space. -/
def codeLookahead : Str → Bool
  | '\n' :: a :: b :: _ =>
    (a.isUpper || a.isLower) && (b.isUpper || b.isLower || decide (b = ' '))
  | _ => false

/-- The same lookahead read literally (as the spec reads it): a newline
followed by a CAPITAL letter followed by a lowercase letter or space.
Used only to compare the spec's description against the code (claim C8). -/
def specLookahead : Str → Bool
  | '\n' :: a :: b :: _ => a.isUpper && (b.isLower || decide (b = ' '))
  | _ => false

/-- The lazy capture `(.*?)(?=LOOKAHEAD|\Z)`: everything up to the first
position where the lookahead holds, or to the end of text. -/
def captureUntil (look : Str → Bool) : Str → Str
  | [] => []
  | s@(c :: s') => if look s then [] else c :: captureUntil look s'

/-- `re.search` for a `REGEX_PATTERNS`-shaped pattern: scan left to right
for the first position where an alternative plus separator matches, then
return group 2 (the lazy capture after the greedy separator run). -/
def regexSearch (look : Str → Bool) (alts : List Str) : Str → Option Str
  | [] => none
  | s@(_ :: s') =>
    match tryAlts alts s with
    | some n => some (captureUntil look ((s.drop n).dropWhile isSepChar))
    | none => regexSearch look alts s'

/-- `build_sections` from scripts/build_sections.py, before the final
comprehension that drops empty sections: pass 1, then for each named
section that pass 1 left empty, the regex fallback. -/
def buildSectionsFull (t : Str) (k : Section) : Str :=
  if k = .other then pass1 t k
  else if (pass1 t k).isEmpty then
    match regexSearch codeLookahead (REGEX_KWS k) t with
    | some cap => pyStrip cap
    | none => pass1 t k
  else pass1 t k

/-- `build_sections`: the persisted mapping, where sections whose final
content is empty are dropped (`{k: v for k, v in sections.items() if v}`). -/
def buildSections (t : Str) (k : Section) : Option Str :=
  if (buildSectionsFull t k).isEmpty then none else some (buildSectionsFull t k)

/-- The claim-side description of pass 1 (spec §4.2, claim C4), stated as a
per-section assignment: walk the lines with a current-section cursor that
starts at `other`; skip blank lines; a header line (lower-cased, trimmed
form exactly equal to a synonym) switches the cursor and is itself dropped;
any other line is assigned verbatim to the cursor's section. -/
def assignedLines : List Str → Section → Section → List Str
  | [], _, _ => []
  | l :: ls, cur, k =>
    if isBlankLine l then assignedLines ls cur k
    else
      match detectSection l with
      | some s => assignedLines ls s k
      | none => (if cur = k then [l] else []) ++ assignedLines ls cur k

theorem scanLines_eq_assignedLines (ls : List Str) :
    ∀ (cur : Section) (buf : Section → List Str) (k : Section),
      scanLines ls cur buf k = buf k ++ assignedLines ls cur k := by
  induction ls with
  | nil => intro cur buf k; simp [scanLines, assignedLines]
  | cons l ls ih =>
    intro cur buf k
    by_cases hb : isBlankLine l = true
    · simp [scanLines, assignedLines, hb, ih]
    · simp only [Bool.not_eq_true] at hb
      cases hd : detectSection l with
      | some s => simp [scanLines, assignedLines, hb, hd, ih]
      | none =>
        simp only [scanLines, assignedLines, hb, Bool.false_eq_true, if_false, hd]
        rw [ih]
        by_cases hc : cur = k
        · subst hc
          simp [List.append_assoc]
        · have hck : ¬k = cur := fun h => hc h.symm
          simp [hc, hck]

/-- Claim C4: pass 1 of the section segmenter performs the specified line
scan: the cursor starts at `other`, blank lines are skipped, a line whose
lower-cased trimmed form equals a synonym switches the cursor and is
appended to no bucket, every other line is appended verbatim to the
current bucket, and each bucket is joined with newlines and trimmed.
Stated as: the source's buffer-filling fold equals the claim-side
cursor-assignment description, joined and stripped. -/
theorem c4_pass1_line_scan (t : Str) (k : Section) :
    pass1 t k = pyStrip (joinSep ['\n'] (assignedLines (splitlines t) .other k)) := by
  rw [pass1, scanLines_eq_assignedLines]
  simp

/-- Claim C8 (amended): for each of the five named sections, if pass 1 left
it empty then the regex fallback searches the original text and the
trimmed captured group (if any) becomes the section content, subject to
the final empty-drop; sections pass 1 filled are left unchanged.  The
capture boundary is the next line starting with a LETTER OF EITHER CASE
followed by a letter or space — the inline `(?i)` flag applies to the
character classes `[A-Z]` and `[a-z ]`. -/
theorem c8_regex_fallback (t : Str) (k : Section) (hk : k ≠ Section.other) :
    (¬(pass1 t k).isEmpty = true → buildSections t k = some (pass1 t k)) ∧
    ((pass1 t k).isEmpty = true → buildSections t k =
      match (regexSearch codeLookahead (REGEX_KWS k) t).map pyStrip with
      | some cap => if cap.isEmpty then none else some cap
      | none => none) := by
  constructor
  · intro h
    have hfull : buildSectionsFull t k = pass1 t k := by
      rw [buildSectionsFull, if_neg hk, if_neg h]
    rw [buildSections, hfull, if_neg h]
  · intro h
    cases hr : regexSearch codeLookahead (REGEX_KWS k) t with
    | some cap =>
      have hfull : buildSectionsFull t k = pyStrip cap := by
        rw [buildSectionsFull, if_neg hk, if_pos h, hr]
      rw [buildSections, hfull]
      rfl
    | none =>
      have hfull : buildSectionsFull t k = pass1 t k := by
        rw [buildSectionsFull, if_neg hk, if_pos h, hr]
      rw [buildSections, hfull, if_pos h]
      rfl

theorem c8_regex_fallback_witness :
    (Section.skills ≠ Section.other) ∧
    ((¬(pass1 ("skills: python\njava and more".toList) Section.skills).isEmpty = true →
      buildSections ("skills: python\njava and more".toList) Section.skills =
        some (pass1 ("skills: python\njava and more".toList) Section.skills)) ∧
    ((pass1 ("skills: python\njava and more".toList) Section.skills).isEmpty = true →
      buildSections ("skills: python\njava and more".toList) Section.skills =
      match (regexSearch codeLookahead (REGEX_KWS Section.skills)
          ("skills: python\njava and more".toList)).map pyStrip with
      | some cap => if cap.isEmpty then none else some cap
      | none => none)) :=
  ⟨by decide, c8_regex_fallback ("skills: python\njava and more".toList) Section.skills
    (by decide)⟩

/-- Input on which the code's `(?i)` capture boundary differs from the
claim's capital-letter reading. -/
def c8Text : Str := "skills: python\njava and more".toList

/-- Claim C8 as stated is false: on `c8Text`, pass 1 leaves `skills` empty
and the fallback fires, but the code stores `"python"` (the `(?i)` flag
lets the boundary `\n[A-Z][a-z ]+` match the lower-case line
`"java and more"`), whereas the claim's boundary — next line starting with
a CAPITAL letter — would capture `"python\njava and more"`. -/
theorem c8_counterexample :
    (pass1 c8Text Section.skills).isEmpty = true ∧
    buildSections c8Text Section.skills = some ("python".toList) ∧
    (regexSearch specLookahead (REGEX_KWS Section.skills) c8Text).map pyStrip =
      some ("python\njava and more".toList) ∧
    buildSections c8Text Section.skills ≠
      (regexSearch specLookahead (REGEX_KWS Section.skills) c8Text).map pyStrip := by
  refine ⟨by decide, by decide, by decide, by decide⟩

/-!
## Resume Text Composer: `build_resume_text`

Two variants exist: scripts/match_resumes.py (only dict entries rendered,
`responsibilities[:5]`, experience part added only when some dict entry
produced text) and scripts/query_resumes.py (plain-string entries rendered
as `"- <s>"`, `responsibilities[:3]`, part added whenever the section list
is non-empty).  Section values are modelled by `Sections`; an absent key
and an empty value coincide, exactly as the code's `.get(key, default)`
plus truthiness tests treat them.
-/

/-- An experience entry: either a plain string or a dict with the keys the
composers read (`title`, `company`, `dates`, `responsibilities`). -/
inductive ExpEntry where
  | strE (s : Str)
  | objE (title company dates : Option Str) (responsibilities : List Str)
deriving DecidableEq

/-- An education entry: plain string or dict (`degree`, `field`,
`institution`). -/
inductive EduEntry where
  | strE (s : Str)
  | objE (degree fld institution : Option Str)
deriving DecidableEq

structure Sections where
  summary : Str
  experience : List ExpEntry
  education : List EduEntry
  skills : List Str
  certifications : List Str
deriving DecidableEq

/-- `exp.get(k, '')`. -/
def getStrD (o : Option Str) : Str := o.getD []

/-- `if exp.get('dates'): exp_text += f" ({...})"`. -/
def renderDates (dates : Option Str) : Str :=
  match dates with
  | some d => if d.isEmpty then [] else " (".toList ++ d ++ ")".toList
  | none => []

/-- One dict experience entry, with the first `n` responsibilities. -/
def renderExpObj (n : Nat) (title company dates : Option Str) (resp : List Str) : Str :=
  "- ".toList ++ getStrD title ++ " at ".toList ++ getStrD company ++ renderDates dates ++
    (if resp.isEmpty then [] else ": ".toList ++ joinSep "; ".toList (resp.take n))

/-- One dict education entry. -/
def renderEduObj (degree fld institution : Option Str) : Str :=
  "- ".toList ++ getStrD degree ++ " in ".toList ++ getStrD fld ++ " from ".toList ++
    getStrD institution

/-- match_resumes.build_resume_text experience texts: dict entries only. -/
def expTextsMatch (es : List ExpEntry) : List Str :=
  es.filterMap fun e =>
    match e with
    | .objE t c d r => some (renderExpObj 5 t c d r)
    | .strE _ => none

/-- query_resumes.build_resume_text experience texts: dicts rendered, plain
strings rendered as `"- <s>"`. -/
def expTextsQuery (es : List ExpEntry) : List Str :=
  es.map fun e =>
    match e with
    | .objE t c d r => renderExpObj 3 t c d r
    | .strE s => "- ".toList ++ s

def eduTextsMatch (es : List EduEntry) : List Str :=
  es.filterMap fun e =>
    match e with
    | .objE d f i => some (renderEduObj d f i)
    | .strE _ => none

def eduTextsQuery (es : List EduEntry) : List Str :=
  es.map fun e =>
    match e with
    | .objE d f i => renderEduObj d f i
    | .strE s => "- ".toList ++ s

/-- `build_resume_text` from scripts/match_resumes.py. -/
def buildResumeTextMatch (s : Sections) : Str :=
  let parts :=
    (if s.summary.isEmpty then [] else ["SUMMARY: ".toList ++ s.summary]) ++
    (if s.experience.isEmpty then [] else
      if (expTextsMatch s.experience).isEmpty then [] else
        ["EXPERIENCE:\n".toList ++ joinSep ['\n'] (expTextsMatch s.experience)]) ++
    (if s.education.isEmpty then [] else
      if (eduTextsMatch s.education).isEmpty then [] else
        ["EDUCATION:\n".toList ++ joinSep ['\n'] (eduTextsMatch s.education)]) ++
    (if s.skills.isEmpty then [] else ["SKILLS: ".toList ++ joinSep ", ".toList s.skills]) ++
    (if s.certifications.isEmpty then [] else
      ["CERTIFICATIONS: ".toList ++ joinSep ", ".toList s.certifications])
  joinSep "\n\n".toList parts

/-- `build_resume_text` from scripts/query_resumes.py. -/
def buildResumeTextQuery (s : Sections) : Str :=
  let parts :=
    (if s.summary.isEmpty then [] else ["SUMMARY: ".toList ++ s.summary]) ++
    (if s.experience.isEmpty then [] else
      ["EXPERIENCE:\n".toList ++ joinSep ['\n'] (expTextsQuery s.experience)]) ++
    (if s.education.isEmpty then [] else
      ["EDUCATION:\n".toList ++ joinSep ['\n'] (eduTextsQuery s.education)]) ++
    (if s.skills.isEmpty then [] else ["SKILLS: ".toList ++ joinSep ", ".toList s.skills]) ++
    (if s.certifications.isEmpty then [] else
      ["CERTIFICATIONS: ".toList ++ joinSep ", ".toList s.certifications])
  joinSep "\n\n".toList parts

/-- Claim C7 (amended): only the query-side composer
(query_resumes.build_resume_text) renders plain-string experience entries —
as `"- <s>"` lines, giving a non-empty experience rendering; the match-side
composer (match_resumes.build_resume_text) skips non-dict entries, so a
record whose experience list contains only plain strings composes to the
empty string there. -/
theorem c7_composer_plain_strings (strs : List Str) (h : strs ≠ []) :
    buildResumeTextQuery ⟨[], strs.map ExpEntry.strE, [], [], []⟩ =
      "EXPERIENCE:\n".toList ++ joinSep ['\n'] (strs.map (fun s => "- ".toList ++ s)) ∧
    buildResumeTextMatch ⟨[], strs.map ExpEntry.strE, [], [], []⟩ = [] := by
  have hne : (strs.map ExpEntry.strE).isEmpty = false := by
    cases strs with
    | nil => exact absurd rfl h
    | cons a l => rfl
  constructor
  · rw [buildResumeTextQuery]
    simp only [hne, List.isEmpty_nil, if_pos rfl, Bool.false_eq_true, if_false]
    rw [expTextsQuery, List.map_map]
    rfl
  · rw [buildResumeTextMatch]
    have hflt : expTextsMatch (strs.map ExpEntry.strE) = [] := by
      rw [expTextsMatch, List.filterMap_map]
      exact List.filterMap_eq_nil_iff.mpr (fun e _ => rfl)
    simp [hne, hflt, joinSep]

theorem c7_composer_plain_strings_witness :
    (["Software Engineer".toList] ≠ ([] : List Str)) ∧
    (buildResumeTextQuery ⟨[], (["Software Engineer".toList]).map ExpEntry.strE, [], [], []⟩ =
      "EXPERIENCE:\n".toList ++
        joinSep ['\n'] ((["Software Engineer".toList]).map (fun s => "- ".toList ++ s)) ∧
    buildResumeTextMatch ⟨[], (["Software Engineer".toList]).map ExpEntry.strE, [], [], []⟩ = []) :=
  ⟨by decide, c7_composer_plain_strings ["Software Engineer".toList] (by decide)⟩

/-- Claim C7 as stated is false for match_resumes.build_resume_text (one of
the two functions the claim cites): a record whose experience list contains
only the plain string "Software Engineer" composes to the EMPTY string —
plain-string entries are skipped, not rendered. -/
theorem c7_counterexample :
    buildResumeTextMatch ⟨[], [ExpEntry.strE ("Software Engineer".toList)], [], [], []⟩ = [] ∧
    [ExpEntry.strE ("Software Engineer".toList)] ≠ ([] : List ExpEntry) := by
  constructor
  · rfl
  · intro hcon; cases hcon

/-!
## Hybrid Retriever (scripts/query_resumes.py)
-/

/-- The regex word class `\w` (ASCII fragment: letters, digits, underscore;
the queries and keywords the claims touch are ASCII). -/
def isWordChar (c : Char) : Bool := c.isAlphanum || c = '_'

/-- `re.findall(r'"([^"]+)"|(\b\w+\b)', s)`, returning per match the group
that participated: at a `"` with a non-empty quoted body the body is one
token; otherwise maximal `\w` runs are tokens (leftmost, non-overlapping;
a `"` with no closing quote or an empty body is skipped). -/
def tokenizeGo : Nat → Str → List Str
  | _, [] => []
  | 0, _ :: _ => []
  | fuel + 1, c :: rest =>
    if c = '"' then
      let body := rest.takeWhile (fun d => !decide (d = '"'))
      let rem := rest.dropWhile (fun d => !decide (d = '"'))
      if rem.isEmpty then tokenizeGo fuel rest
      else if body.isEmpty then tokenizeGo fuel rest
      else body :: tokenizeGo fuel rem.tail
    else if isWordChar c then
      (c :: rest.takeWhile isWordChar) :: tokenizeGo fuel (rest.dropWhile isWordChar)
    else tokenizeGo fuel rest

/-- The scan never consumes fewer than one character per step, so fuel equal
to the string length always suffices and the `fuel = 0` base case is never
reached. -/
def tokenize (s : Str) : List Str := tokenizeGo s.length s

/-- `stop_words` from `extract_keywords`. -/
def stopWords : List Str :=
  ["show", "me", "find", "with", "the", "and", "or", "a", "an", "is",
   "are", "has", "have", "who", "what", "where", "when", "candidates",
   "experience", "skills", "any", "all", "some", "looking", "for", "need"].map
    String.toList

/-- `extract_keywords` from scripts/query_resumes.py: lower-case, tokenize,
keep tokens of length ≥ 2 that are not stop words (every kept token is
appended — there is NO deduplication step). -/
def extractKeywords (q : Str) : List Str :=
  (tokenize (lowerStr q)).filter fun w =>
    decide (2 ≤ w.length) && !decide (w ∈ stopWords)

/-- Claim C5 (amended): keyword extraction lower-cases the query, tokenizes
into bare words and quoted phrases, drops tokens shorter than 2 characters
and stop-word tokens, and returns the surviving tokens in first-seen order
WITHOUT removing duplicates (the result can contain the same keyword
twice). -/
theorem c5_keyword_extraction (q : Str) :
    (extractKeywords q).Sublist (tokenize (lowerStr q)) ∧
    ∀ w, w ∈ extractKeywords q → 2 ≤ w.length ∧ w ∉ stopWords := by
  constructor
  · exact List.filter_sublist _
  · intro w hw
    have h := List.of_mem_filter hw
    simp only [Bool.and_eq_true, decide_eq_true_eq, Bool.not_eq_true',
      decide_eq_false_iff_not] at h
    exact h

theorem c5_keyword_extraction_witness :
    ("python".toList ∈ extractKeywords ("find python developer".toList)) ∧
    (2 ≤ ("python".toList).length ∧ "python".toList ∉ stopWords) :=
  ⟨by decide, (c5_keyword_extraction ("find python developer".toList)).2
    ("python".toList) (by decide)⟩

/-- Claim C5 as stated is false: duplicates are NOT removed.  On the query
`"python python"` the extractor returns the keyword `"python"` twice. -/
theorem c5_counterexample :
    extractKeywords ("python python".toList) = ["python".toList, "python".toList] ∧
    ¬(extractKeywords ("python python".toList)).Nodup := by
  refine ⟨by decide, by decide⟩

/-- `match_type` of a `SearchMatch`. -/
inductive MatchType where
  | exact | semantic
deriving DecidableEq, Repr

/-- The per-query result dict of the retriever (semantic results carry no
`matched_keywords` key; `match.get("matched_keywords", [])` makes that the
same as an empty list, which is how it is modelled). -/
structure SearchMatch where
  id : Str
  content : Str
  matchedKeywords : List Str
  score : ℚ
  matchType : MatchType
deriving DecidableEq, Repr

/-- One processed resume JSON file: its stem and its `sections` value. -/
structure ResumeRecord where
  id : Str
  sections : Sections
deriving DecidableEq

/-- Python's `needle in hay` on strings: contiguous-substring test. -/
def isSubstr (needle : Str) : Str → Bool
  | [] => needle.isEmpty
  | s@(_ :: rest) => needle.isPrefixOf s || isSubstr needle rest

/-- The keywords of `kws` that hit record `secs`: containment in a skill
(bidirectional substring) or in the lower-cased composed text. -/
def recordMatchedKeywords (kws : List Str) (secs : Sections) : List Str :=
  let fullText := lowerStr (buildResumeTextQuery secs)
  let skills := secs.skills.map lowerStr
  kws.filter fun kw =>
    skills.any (fun sk => isSubstr kw sk || isSubstr sk kw) || isSubstr kw fullText

/-- The exact-match dict built for one record (`None` when no keyword
matched); `score = len(matched) / len(keywords)`, written with `mkRat`
(equal to division in `ℚ`, see `score_eq_div`) so that concrete runs
reduce in the kernel. -/
def mkExactMatch (kws : List Str) (r : ResumeRecord) : Option SearchMatch :=
  let matched := recordMatchedKeywords kws r.sections
  if matched.isEmpty then none
  else some ⟨r.id, buildResumeTextQuery r.sections, matched,
    mkRat (matched.length : Int) kws.length, .exact⟩

theorem score_eq_div (m n : Nat) : mkRat (m : Int) n = (m : ℚ) / (n : ℚ) := by
  rw [Rat.mkRat_eq_div]
  norm_num

/-- `matches.sort(key=lambda x: -x["score"])`: ascending by `-score`, i.e.
`a` may stay before `b` iff `b.score ≤ a.score`. -/
def scoreDesc (a b : SearchMatch) : Prop := b.score ≤ a.score

instance : DecidableRel scoreDesc := fun a b => inferInstanceAs (Decidable (b.score ≤ a.score))

instance : IsTotal SearchMatch scoreDesc := ⟨fun a b => le_total b.score a.score⟩

instance : IsTrans SearchMatch scoreDesc := ⟨fun _ _ _ h1 h2 => le_trans h2 h1⟩

/-- `search_by_keywords` from scripts/query_resumes.py: build the per-record
exact matches over the corpus (in directory-iteration order), sort by score
descending (Python's stable sort, modelled by Mathlib's stable
`insertionSort`), cap to `limit`. -/
def searchByKeywords (kws : List Str) (limit : Nat) (corpus : List ResumeRecord) :
    List SearchMatch :=
  if kws.isEmpty then []
  else ((corpus.filterMap (mkExactMatch kws)).insertionSort scoreDesc).take limit

/-- One hit of `db.similarity_search_with_score(query, k=3*n_results)`:
document content, its `source_file` metadata, and the raw distance. -/
structure SemHit where
  content : Str
  sourceFile : Str
  dist : ℚ
deriving DecidableEq

/-- `metadata.get("source_file", "unknown").replace(".json", "")`: delete
every (non-overlapping, left-to-right) occurrence of `".json"`.  Each step
consumes at least one character, so fuel equal to the length suffices. -/
def removeJsonGo : Nat → Str → Str
  | _, [] => []
  | 0, s => s
  | fuel + 1, c :: rest =>
    if (".json".toList).isPrefixOf (c :: rest) then removeJsonGo fuel (rest.drop 4)
    else c :: removeJsonGo fuel rest

def removeJson (s : Str) : Str := removeJsonGo s.length s

/-- The dict appended for a fresh semantic hit: `score = 1 / (1 + dist)`. -/
def semMatch (h : SemHit) : SearchMatch :=
  ⟨removeJson h.sourceFile, h.content, [], 1 / (1 + h.dist), .semantic⟩

/-- The exact-phase dedup loop of `search_resumes` (`seen_ids` as a list). -/
def addExact : List SearchMatch → List Str → List SearchMatch → List Str × List SearchMatch
  | [], seen, acc => (seen, acc)
  | m :: ms, seen, acc =>
    if m.id ∈ seen then addExact ms seen acc
    else addExact ms (seen ++ [m.id]) (acc ++ [m])

/-- The semantic phase of `search_resumes`: walk the hits, skip ids already
seen, append fresh ones, and stop as soon as `n_results` results exist. -/
def addSemantic (k : Nat) : List SemHit → List Str → List SearchMatch → List SearchMatch
  | [], _, acc => acc
  | h :: hs, seen, acc =>
    let cid := removeJson h.sourceFile
    if cid ∈ seen then addSemantic k hs seen acc
    else
      if k ≤ (acc ++ [semMatch h]).length then acc ++ [semMatch h]
      else addSemantic k hs (seen ++ [cid]) (acc ++ [semMatch h])

/-- The final comparison key `(match_type != "exact", -score)`, as the
non-strict lexicographic order Python's ascending stable sort uses. -/
def notExactB (a : SearchMatch) : Bool := decide (a.matchType ≠ MatchType.exact)

def finalLe (a b : SearchMatch) : Prop :=
  (notExactB a = false ∧ notExactB b = true) ∨ (notExactB a = notExactB b ∧ b.score ≤ a.score)

instance : DecidableRel finalLe := fun a b => by unfold finalLe; infer_instance

instance : IsTotal SearchMatch finalLe := by
  constructor
  intro a b
  cases ha : notExactB a <;> cases hb : notExactB b
  · rcases le_total b.score a.score with h | h
    · exact Or.inl (Or.inr ⟨by rw [ha, hb], h⟩)
    · exact Or.inr (Or.inr ⟨by rw [ha, hb], h⟩)
  · exact Or.inl (Or.inl ⟨ha, hb⟩)
  · exact Or.inr (Or.inl ⟨hb, ha⟩)
  · rcases le_total b.score a.score with h | h
    · exact Or.inl (Or.inr ⟨by rw [ha, hb], h⟩)
    · exact Or.inr (Or.inr ⟨by rw [ha, hb], h⟩)

instance : IsTrans SearchMatch finalLe := by
  constructor
  intro a b c hab hbc
  rcases hab with ⟨ha, hb⟩ | ⟨hab, hsab⟩
  · rcases hbc with ⟨hb2, hc⟩ | ⟨hbc, _⟩
    · rw [hb] at hb2; cases hb2
    · exact Or.inl ⟨ha, hbc ▸ hb⟩
  · rcases hbc with ⟨hb2, hc⟩ | ⟨hbc, hsbc⟩
    · exact Or.inl ⟨hab ▸ hb2, hc⟩
    · exact Or.inr ⟨hab.trans hbc, hsbc.trans hsab⟩

/-- The exact phase of `search_resumes`: `(seen_ids, all_matches)` after
step 1 (skipped entirely when the query yields no keywords). -/
def exactPhase (q : Str) (k : Nat) (corpus : List ResumeRecord) :
    List Str × List SearchMatch :=
  if (extractKeywords q).isEmpty then (([] : List Str), ([] : List SearchMatch))
  else addExact (searchByKeywords (extractKeywords q) k corpus) [] []

/-- `all_matches` after the optional semantic phase: run only when the
exact matches number fewer than `n_results`; `index = none` models the
vector-store collaborator raising (the code catches the exception and
keeps `all_matches` unchanged), `index = some hits` a successful
`similarity_search_with_score(query, k=3*n_results)` reply. -/
def searchAcc (q : Str) (k : Nat) (corpus : List ResumeRecord)
    (index : Option (List SemHit)) : List SearchMatch :=
  if (exactPhase q k corpus).2.length < k then
    match index with
    | some hits => addSemantic k hits (exactPhase q k corpus).1 (exactPhase q k corpus).2
    | none => (exactPhase q k corpus).2
  else (exactPhase q k corpus).2

/-- `search_resumes` from scripts/query_resumes.py: exact phase, optional
semantic phase, stable sort by `(match_type != "exact", -score)`, cap. -/
def searchResumes (q : Str) (k : Nat) (corpus : List ResumeRecord)
    (index : Option (List SemHit)) : List SearchMatch :=
  ((searchAcc q k corpus index).insertionSort finalLe).take k

theorem mkExactMatch_props (kws : List Str) (r : ResumeRecord) (m : SearchMatch)
    (h : mkExactMatch kws r = some m) : m.matchType = MatchType.exact ∧ m.id = r.id := by
  unfold mkExactMatch at h
  by_cases he : (recordMatchedKeywords kws r.sections).isEmpty = true
  · rw [if_pos he] at h; cases h
  · rw [if_neg he] at h
    cases h
    exact ⟨rfl, rfl⟩

theorem exactIds_sublist (kws : List Str) (corpus : List ResumeRecord) :
    ((corpus.filterMap (mkExactMatch kws)).map SearchMatch.id).Sublist
      (corpus.map ResumeRecord.id) := by
  induction corpus with
  | nil => simp
  | cons r rs ih =>
    simp only [List.filterMap_cons, List.map_cons]
    cases hm : mkExactMatch kws r with
    | none => exact ih.cons _
    | some m =>
      simp only [List.map_cons]
      rw [(mkExactMatch_props kws r m hm).2]
      exact ih.cons₂ _

theorem sbk_mem (kws : List Str) (k : Nat) (corpus : List ResumeRecord) (m : SearchMatch)
    (hm : m ∈ searchByKeywords kws k corpus) :
    m.matchType = MatchType.exact ∧ ∃ r ∈ corpus, m.id = r.id := by
  unfold searchByKeywords at hm
  by_cases hk : kws.isEmpty = true
  · rw [if_pos hk] at hm; cases hm
  · rw [if_neg hk] at hm
    have h1 := (List.take_sublist _ _).mem hm
    rw [List.mem_insertionSort] at h1
    obtain ⟨r, hr, hfm⟩ := List.mem_filterMap.mp h1
    obtain ⟨h2, h3⟩ := mkExactMatch_props kws r m hfm
    exact ⟨h2, r, hr, h3⟩

theorem sbk_sorted (kws : List Str) (k : Nat) (corpus : List ResumeRecord) :
    List.Pairwise scoreDesc (searchByKeywords kws k corpus) := by
  unfold searchByKeywords
  by_cases hk : kws.isEmpty = true
  · rw [if_pos hk]; exact List.Pairwise.nil
  · rw [if_neg hk]
    exact (List.sorted_insertionSort scoreDesc _).sublist (List.take_sublist _ _)

theorem sbk_sorted_final (kws : List Str) (k : Nat) (corpus : List ResumeRecord) :
    List.Pairwise finalLe (searchByKeywords kws k corpus) := by
  apply List.Pairwise.imp_of_mem ?_ (sbk_sorted kws k corpus)
  intro a b ha hb hr
  have hae := (sbk_mem _ _ _ _ ha).1
  have hbe := (sbk_mem _ _ _ _ hb).1
  exact Or.inr ⟨by simp [notExactB, hae, hbe], hr⟩

theorem sbk_ids_nodup (kws : List Str) (k : Nat) (corpus : List ResumeRecord)
    (hn : (corpus.map ResumeRecord.id).Nodup) :
    ((searchByKeywords kws k corpus).map SearchMatch.id).Nodup := by
  unfold searchByKeywords
  by_cases hk : kws.isEmpty = true
  · rw [if_pos hk]; exact List.nodup_nil
  · rw [if_neg hk]
    have h1 : ((corpus.filterMap (mkExactMatch kws)).map SearchMatch.id).Nodup :=
      hn.sublist (exactIds_sublist kws corpus)
    have h2 := (List.perm_insertionSort scoreDesc (corpus.filterMap (mkExactMatch kws))).map
      SearchMatch.id
    have h3 := h2.nodup_iff.mpr h1
    rw [List.map_take]
    exact h3.sublist (List.take_sublist _ _)

theorem sbk_length (kws : List Str) (k : Nat) (corpus : List ResumeRecord) :
    (searchByKeywords kws k corpus).length ≤ k := by
  unfold searchByKeywords
  by_cases hk : kws.isEmpty = true
  · rw [if_pos hk]; exact Nat.zero_le k
  · rw [if_neg hk]; exact List.length_take_le k _

theorem sbk_complete (kws : List Str) (k : Nat) (corpus : List ResumeRecord)
    (hlen : (searchByKeywords kws k corpus).length < k)
    (hkws : ¬kws.isEmpty = true) (r : ResumeRecord) (hr : r ∈ corpus)
    (hmatch : (recordMatchedKeywords kws r.sections).isEmpty = false) :
    r.id ∈ (searchByKeywords kws k corpus).map SearchMatch.id := by
  unfold searchByKeywords at hlen ⊢
  rw [if_neg hkws] at hlen ⊢
  have hl : (List.insertionSort scoreDesc (corpus.filterMap (mkExactMatch kws))).length ≤ k := by
    rw [List.length_take] at hlen
    omega
  rw [List.take_of_length_le hl]
  have hsome : mkExactMatch kws r = some ⟨r.id, buildResumeTextQuery r.sections,
      recordMatchedKeywords kws r.sections,
      mkRat ((recordMatchedKeywords kws r.sections).length : Int) kws.length,
      .exact⟩ := by
    unfold mkExactMatch
    rw [if_neg (by rw [hmatch]; simp)]
  have hmem : (⟨r.id, buildResumeTextQuery r.sections,
      recordMatchedKeywords kws r.sections,
      mkRat ((recordMatchedKeywords kws r.sections).length : Int) kws.length,
      .exact⟩ : SearchMatch) ∈ corpus.filterMap (mkExactMatch kws) :=
    List.mem_filterMap.mpr ⟨r, hr, hsome⟩
  rw [← List.mem_insertionSort scoreDesc] at hmem
  exact List.mem_map_of_mem SearchMatch.id hmem

theorem addExact_eq : ∀ (ms : List SearchMatch) (seen : List Str) (acc : List SearchMatch),
    (∀ m ∈ ms, m.id ∉ seen) → (ms.map SearchMatch.id).Nodup →
    addExact ms seen acc = (seen ++ ms.map SearchMatch.id, acc ++ ms)
  | [], seen, acc, _, _ => by simp [addExact]
  | m :: ms, seen, acc, hs, hn => by
    obtain ⟨hn1, hn2⟩ : (∀ x ∈ ms, ¬x.id = m.id) ∧ (ms.map SearchMatch.id).Nodup := by
      simpa using hn
    rw [addExact, if_neg (hs m (List.mem_cons_self _ _))]
    rw [addExact_eq ms (seen ++ [m.id]) (acc ++ [m]) ?_ hn2]
    · simp
    · intro x hx
      simp only [List.mem_append, List.mem_singleton]
      rintro (h1 | h1)
      · exact hs x (List.mem_cons_of_mem _ hx) h1
      · exact hn1 x hx h1

theorem addSemantic_props (k : Nat) :
    ∀ (hs : List SemHit) (seen : List Str) (acc : List SearchMatch),
      ∃ rest, addSemantic k hs seen acc = acc ++ rest ∧
        ∀ m ∈ rest, m.matchType = MatchType.semantic ∧ m.id ∉ seen
  | [], seen, acc => ⟨[], by simp [addSemantic], by simp⟩
  | h :: hs, seen, acc => by
    by_cases hc : removeJson h.sourceFile ∈ seen
    · obtain ⟨rest, heq, hrest⟩ := addSemantic_props k hs seen acc
      exact ⟨rest, by rw [addSemantic]; simp only [hc, if_pos]; exact heq, hrest⟩
    · by_cases hk : k ≤ (acc ++ [semMatch h]).length
      · refine ⟨[semMatch h], ?_, ?_⟩
        · rw [addSemantic]
          simp only [hc, if_neg, if_pos hk, Bool.false_eq_true, if_false]
        · intro m hm
          rw [List.mem_singleton] at hm
          subst hm
          exact ⟨rfl, hc⟩
      · obtain ⟨rest, heq, hrest⟩ :=
          addSemantic_props k hs (seen ++ [removeJson h.sourceFile]) (acc ++ [semMatch h])
        refine ⟨semMatch h :: rest, ?_, ?_⟩
        · rw [addSemantic]
          simp only [hc, if_neg, if_neg hk, Bool.false_eq_true, if_false]
          rw [heq]
          simp
        · intro m hm
          rcases List.mem_cons.mp hm with h1 | h1
          · subst h1; exact ⟨rfl, hc⟩
          · obtain ⟨hm1, hm2⟩ := hrest m h1
            exact ⟨hm1, fun hx => hm2 (List.mem_append_left _ hx)⟩

theorem addSemantic_nodup (k : Nat) :
    ∀ (hs : List SemHit) (seen : List Str) (acc : List SearchMatch),
      (acc.map SearchMatch.id).Nodup → (∀ m ∈ acc, m.id ∈ seen) →
      ((addSemantic k hs seen acc).map SearchMatch.id).Nodup
  | [], _, acc, hn, _ => by simpa [addSemantic] using hn
  | h :: hs, seen, acc, hn, hsub => by
    by_cases hc : removeJson h.sourceFile ∈ seen
    · rw [addSemantic]
      simp only [hc, if_pos]
      exact addSemantic_nodup k hs seen acc hn hsub
    · have hnew : ((acc ++ [semMatch h]).map SearchMatch.id).Nodup := by
        rw [List.map_append]
        refine List.Nodup.append hn (by simp) ?_
        intro x hx hy
        simp only [List.map_cons, List.map_nil, List.mem_singleton] at hy
        subst hy
        obtain ⟨m, hm, hmid⟩ := List.mem_map.mp hx
        have hmem : m.id ∈ seen := hsub m hm
        rw [hmid] at hmem
        exact hc hmem
      have hsub2 : ∀ m ∈ acc ++ [semMatch h],
          m.id ∈ seen ++ [removeJson h.sourceFile] := by
        intro m hm
        rcases List.mem_append.mp hm with h1 | h1
        · exact List.mem_append_left _ (hsub m h1)
        · rw [List.mem_singleton] at h1
          subst h1
          exact List.mem_append_right _ (by simp [semMatch])
      by_cases hk : k ≤ (acc ++ [semMatch h]).length
      · rw [addSemantic]
        simp only [hc, if_neg, if_pos hk, Bool.false_eq_true, if_false]
        exact hnew
      · rw [addSemantic]
        simp only [hc, if_neg, if_neg hk, Bool.false_eq_true, if_false]
        exact addSemantic_nodup k hs _ _ hnew hsub2

theorem addSemantic_length (k : Nat) :
    ∀ (hs : List SemHit) (seen : List Str) (acc : List SearchMatch),
      acc.length < k → (addSemantic k hs seen acc).length ≤ k
  | [], _, acc, hl => by rw [addSemantic]; omega
  | h :: hs, seen, acc, hl => by
    by_cases hc : removeJson h.sourceFile ∈ seen
    · rw [addSemantic]
      simp only [hc, if_pos]
      exact addSemantic_length k hs seen acc hl
    · by_cases hk : k ≤ (acc ++ [semMatch h]).length
      · rw [addSemantic]
        simp only [hc, if_neg, if_pos hk, Bool.false_eq_true, if_false]
        rw [List.length_append]
        simp only [List.length_singleton]
        omega
      · rw [addSemantic]
        simp only [hc, if_neg, if_neg hk, Bool.false_eq_true, if_false]
        apply addSemantic_length k hs
        omega

/-- Claim C9: if the vector-index collaborator is unavailable, `search`
returns exactly the exact matches without raising (the semantic pass is
skipped); if additionally the query yields zero keywords, it returns the
empty sequence rather than an error. -/
theorem c9_degraded_search (q : Str) (k : Nat) (corpus : List ResumeRecord)
    (hn : (corpus.map ResumeRecord.id).Nodup) :
    searchResumes q k corpus none = searchByKeywords (extractKeywords q) k corpus ∧
    (extractKeywords q = [] → searchResumes q k corpus none = []) := by
  have hacc : searchAcc q k corpus none = searchByKeywords (extractKeywords q) k corpus := by
    by_cases hkw : (extractKeywords q).isEmpty = true
    · have hex0 : exactPhase q k corpus = ([], []) := by
        unfold exactPhase; rw [if_pos hkw]
      have hsbk : searchByKeywords (extractKeywords q) k corpus = [] := by
        unfold searchByKeywords; rw [if_pos hkw]
      rw [hsbk]
      unfold searchAcc
      rw [hex0]
      simp
    · have hex : exactPhase q k corpus =
          ((searchByKeywords (extractKeywords q) k corpus).map SearchMatch.id,
            searchByKeywords (extractKeywords q) k corpus) := by
        unfold exactPhase
        rw [if_neg hkw, addExact_eq _ _ _ (by simp) (sbk_ids_nodup _ k corpus hn)]
        simp
      unfold searchAcc
      rw [hex]
      simp
  have hsorted : List.Sorted finalLe (searchByKeywords (extractKeywords q) k corpus) :=
    sbk_sorted_final _ _ _
  constructor
  · unfold searchResumes
    rw [hacc, hsorted.insertionSort_eq]
    exact List.take_of_length_le (sbk_length _ _ _)
  · intro h0
    unfold searchResumes
    rw [hacc, hsorted.insertionSort_eq, List.take_of_length_le (sbk_length _ _ _)]
    unfold searchByKeywords
    rw [if_pos (by simp [h0])]

theorem c9_degraded_search_witness :
    (searchResumes ("the".toList) 5 [⟨"r1".toList, ⟨[], [], [], ["python".toList], []⟩⟩] none =
      searchByKeywords (extractKeywords ("the".toList)) 5
        [⟨"r1".toList, ⟨[], [], [], ["python".toList], []⟩⟩]) ∧
    searchResumes ("the".toList) 5 [⟨"r1".toList, ⟨[], [], [], ["python".toList], []⟩⟩] none =
      [] :=
  ⟨(c9_degraded_search ("the".toList) 5 _ (by decide)).1,
    (c9_degraded_search ("the".toList) 5 _ (by decide)).2 (by decide)⟩

/-- Claim C2 (amended): for every query and `k`, `search` returns at most
`k` matches, ordered by the key `(matchType ≠ exact, -score)` (so every
exact match precedes every semantic match and scores are non-increasing
within each group), with pairwise-distinct ids; a record that exact-matches
a keyword never appears with `matchType = semantic`, and whenever it is
among the top-`k` exact matches it appears with `matchType = exact`.  (A
record that exact-matches but is cut by the top-`k` cap does not appear at
all — the semantic pass is skipped because the exact matches already
number `k`; this is the one point where the claim as stated fails.) -/
theorem c2_search_ordering (q : Str) (k : Nat) (corpus : List ResumeRecord)
    (hits : List SemHit) (hn : (corpus.map ResumeRecord.id).Nodup) :
    (searchResumes q k corpus (some hits)).length ≤ k ∧
    List.Pairwise finalLe (searchResumes q k corpus (some hits)) ∧
    ((searchResumes q k corpus (some hits)).map SearchMatch.id).Nodup ∧
    (∀ r ∈ corpus, (recordMatchedKeywords (extractKeywords q) r.sections).isEmpty = false →
      (∀ m ∈ searchResumes q k corpus (some hits), m.id = r.id →
        m.matchType = MatchType.exact) ∧
      (r.id ∈ (searchByKeywords (extractKeywords q) k corpus).map SearchMatch.id →
        ∃ m ∈ searchResumes q k corpus (some hits),
          m.id = r.id ∧ m.matchType = MatchType.exact)) := by
  have hbundle : (searchAcc q k corpus (some hits)).length ≤ k ∧
      ((searchAcc q k corpus (some hits)).map SearchMatch.id).Nodup ∧
      ∃ rest, searchAcc q k corpus (some hits) =
          searchByKeywords (extractKeywords q) k corpus ++ rest ∧
        (∀ m ∈ rest, m.matchType = MatchType.semantic ∧
          m.id ∉ (searchByKeywords (extractKeywords q) k corpus).map SearchMatch.id) ∧
        (rest ≠ [] → (searchByKeywords (extractKeywords q) k corpus).length < k) := by
    by_cases hkw : (extractKeywords q).isEmpty = true
    · have hex0 : exactPhase q k corpus = ([], []) := by
        unfold exactPhase; rw [if_pos hkw]
      have hsbk : searchByKeywords (extractKeywords q) k corpus = [] := by
        unfold searchByKeywords; rw [if_pos hkw]
      have hacc : searchAcc q k corpus (some hits) =
          if 0 < k then addSemantic k hits [] [] else [] := by
        unfold searchAcc
        rw [hex0]
        rfl
      by_cases hk0 : 0 < k
      · rw [hacc, if_pos hk0]
        obtain ⟨rest, heq, hrest⟩ := addSemantic_props k hits [] []
        rw [List.nil_append] at heq
        refine ⟨addSemantic_length k hits [] [] hk0, ?_, rest, by rw [hsbk, heq]; simp, ?_, ?_⟩
        · exact addSemantic_nodup k hits [] [] (by simp) (by simp)
        · intro m hm
          exact ⟨(hrest m hm).1, by rw [hsbk]; simp⟩
        · intro _
          rw [hsbk]
          simpa using hk0
      · rw [hacc, if_neg hk0]
        exact ⟨by simp, by simp, [], by rw [hsbk]; simp, by simp, by simp⟩
    · have hex : exactPhase q k corpus =
          ((searchByKeywords (extractKeywords q) k corpus).map SearchMatch.id,
            searchByKeywords (extractKeywords q) k corpus) := by
        unfold exactPhase
        rw [if_neg hkw, addExact_eq _ _ _ (by simp) (sbk_ids_nodup _ k corpus hn)]
        simp
      by_cases hl : (searchByKeywords (extractKeywords q) k corpus).length < k
      · have hacc : searchAcc q k corpus (some hits) =
            addSemantic k hits
              ((searchByKeywords (extractKeywords q) k corpus).map SearchMatch.id)
              (searchByKeywords (extractKeywords q) k corpus) := by
          unfold searchAcc
          rw [hex]
          simp only []
          rw [if_pos hl]
        obtain ⟨rest, heq, hrest⟩ := addSemantic_props k hits
          ((searchByKeywords (extractKeywords q) k corpus).map SearchMatch.id)
          (searchByKeywords (extractKeywords q) k corpus)
        rw [hacc]
        refine ⟨addSemantic_length k hits _ _ hl, ?_, rest, heq, hrest, fun _ => hl⟩
        exact addSemantic_nodup k hits _ _ (sbk_ids_nodup _ k corpus hn)
          (fun m hm => List.mem_map_of_mem _ hm)
      · have hacc : searchAcc q k corpus (some hits) =
            searchByKeywords (extractKeywords q) k corpus := by
          unfold searchAcc
          rw [hex]
          simp only []
          rw [if_neg hl]
        rw [hacc]
        exact ⟨sbk_length _ _ _, sbk_ids_nodup _ k corpus hn, [], by simp, by simp, by simp⟩
  obtain ⟨hlen, hnod, rest, heq, hrest, hrestlen⟩ := hbundle
  have hperm : ((searchAcc q k corpus (some hits)).insertionSort finalLe).Perm
      (searchAcc q k corpus (some hits)) := List.perm_insertionSort _ _
  have hres_eq : searchResumes q k corpus (some hits) =
      (searchAcc q k corpus (some hits)).insertionSort finalLe := by
    unfold searchResumes
    exact List.take_of_length_le (by rw [hperm.length_eq]; exact hlen)
  refine ⟨?_, ?_, ?_, ?_⟩
  · rw [hres_eq, hperm.length_eq]
    exact hlen
  · rw [hres_eq]
    exact List.sorted_insertionSort finalLe _
  · rw [hres_eq]
    exact ((hperm.map _).nodup_iff).mpr hnod
  · intro r hr hmatch
    have hkne : ¬(extractKeywords q).isEmpty = true := by
      intro hcon
      have h0 : extractKeywords q = [] := by
        cases he : extractKeywords q with
        | nil => rfl
        | cons a l => rw [he] at hcon; cases hcon
      rw [h0] at hmatch
      cases hmatch
    constructor
    · intro m hm hid
      rw [hres_eq] at hm
      have hm2 : m ∈ searchAcc q k corpus (some hits) := hperm.mem_iff.mp hm
      rw [heq] at hm2
      rcases List.mem_append.mp hm2 with h1 | h1
      · exact (sbk_mem _ _ _ _ h1).1
      · obtain ⟨_, hnid⟩ := hrest m h1
        have hlt : (searchByKeywords (extractKeywords q) k corpus).length < k :=
          hrestlen (by intro h0; rw [h0] at h1; cases h1)
        have hin := sbk_complete (extractKeywords q) k corpus hlt hkne r hr hmatch
        rw [← hid] at hin
        exact absurd hin hnid
    · intro hin
      obtain ⟨m0, hm0, hm0id⟩ := List.mem_map.mp hin
      refine ⟨m0, ?_, hm0id, (sbk_mem _ _ _ _ hm0).1⟩
      rw [hres_eq]
      apply hperm.mem_iff.mpr
      rw [heq]
      exact List.mem_append_left _ hm0

/-- A three-record corpus in which every record exact-matches the keyword
`"python"` (it is in each skills list). -/
def secsPy : Sections := ⟨[], [], [], ["python".toList], []⟩

def c2Corpus : List ResumeRecord :=
  [⟨"r1".toList, secsPy⟩, ⟨"r2".toList, secsPy⟩, ⟨"r3".toList, secsPy⟩]

/-- A vector-index reply returning record r3. -/
def c2Hits : List SemHit := [⟨"SKILLS: python".toList, "r3.json".toList, 0⟩]

theorem c2_search_ordering_witness :
    ((searchResumes ("python".toList) 2 c2Corpus (some c2Hits)).length ≤ 2) ∧
    (∃ m ∈ searchResumes ("python".toList) 2 c2Corpus (some c2Hits),
      m.id = "r1".toList ∧ m.matchType = MatchType.exact) := by
  have h := c2_search_ordering ("python".toList) 2 c2Corpus c2Hits (by decide)
  exact ⟨h.1, (h.2.2.2 ⟨"r1".toList, secsPy⟩ (by decide) (by decide)).2 (by decide)⟩

/-- Claim C2 as stated is false at this input: with `k = 2`, record r3
exact-matches the query keyword `"python"` and is returned by the vector
index, yet it appears ZERO times in the result (not "exactly once with
matchType exact"): the three exact matches are capped to the top 2, and the
semantic pass is skipped because the exact matches already fill `k`. -/
theorem c2_counterexample :
    c2Corpus.map ResumeRecord.id = ["r1".toList, "r2".toList, "r3".toList] ∧
    (recordMatchedKeywords (extractKeywords ("python".toList)) secsPy).isEmpty = false ∧
    c2Hits.map (fun h => removeJson h.sourceFile) = ["r3".toList] ∧
    ((searchResumes ("python".toList) 2 c2Corpus (some c2Hits)).filter
      (fun m => decide (m.id = "r3".toList))).length = 0 := by
  refine ⟨by decide, by decide, by decide, by decide⟩

/-!
## Candidate Matcher (scripts/match_resumes.py)

The scoring collaborator (`llm_client.chat.completions.create`, the
markdown stripping, and `json.loads`) is modelled as one function from the
attempt number to the outcome the `try` block observes: a parsed field map
(each key optional), a `json.JSONDecodeError` with its message, or any
other exception with its message.  This is exactly the spec's
`completeJSON` collaborator boundary.
-/

/-- A successfully parsed scoring reply; `none` marks an absent key. -/
structure JObj where
  score : Option Int
  summary : Option Str
  strengths : Option (List Str)
  gaps : Option (List Str)
  reasoning : Option Str
deriving DecidableEq

/-- What one attempt of the scoring call produces. -/
inductive LLMResp where
  | ok (o : JObj)
  | jsonError (e : Str)
  | otherError (e : Str)

/-- The validated dict `score_resume` returns. -/
structure ScoreResult where
  score : Int
  summary : Str
  strengths : List Str
  gaps : List Str
  reasoning : Str
deriving DecidableEq

/-- The f-string rendering of an integer score. -/
def intToStr (n : Int) : Str := (toString n).toList

/-- The field-defaulting block of `score_resume` (`score`→50, then
`reasoning`, `strengths`, `gaps`, and `summary` built from the already
defaulted score). -/
def validateResult (o : JObj) : ScoreResult :=
  { score := o.score.getD 50
    summary := o.summary.getD ("Match score: ".toList ++ intToStr (o.score.getD 50) ++
      "/100".toList)
    strengths := o.strengths.getD []
    gaps := o.gaps.getD []
    reasoning := o.reasoning.getD ("Unable to generate detailed reasoning.".toList) }

/-- The placeholder returned when the last attempt raises
`json.JSONDecodeError` (`str(e)[:50]`). -/
def jsonPlaceholder (e : Str) : ScoreResult :=
  ⟨0, "Error parsing AI response".toList, [], ["Could not analyze resume".toList],
    "JSON parsing error: ".toList ++ e.take 50⟩

/-- The placeholder returned when the last attempt raises any other
exception (`str(e)[:100]`). -/
def errPlaceholder (e : Str) : ScoreResult :=
  ⟨0, "Error during analysis".toList, [], ["Analysis failed".toList],
    "Error: ".toList ++ e.take 100⟩

/-- The `for attempt in range(retries)` loop of `score_resume`, with
`remaining = retries - attempt` as the structural measure; `attempt <
retries - 1` is `1 < remaining`.  Fuel 0 is the loop falling through:
Python's implicit `None`. -/
def scoreResumeGo (f : Nat → LLMResp) : Nat → Nat → Option ScoreResult
  | 0, _ => none
  | remaining + 1, attempt =>
    match f attempt with
    | .ok o => some (validateResult o)
    | .jsonError e =>
      if 0 < remaining then scoreResumeGo f remaining (attempt + 1)
      else some (jsonPlaceholder e)
    | .otherError e =>
      if 0 < remaining then scoreResumeGo f remaining (attempt + 1)
      else some (errPlaceholder e)

/-- `score_resume` from scripts/match_resumes.py (default `retries = 2`). -/
def scoreResume (f : Nat → LLMResp) (retries : Nat) : Option ScoreResult :=
  scoreResumeGo f retries 0

/-- One per-candidate result of the matching loops. -/
structure MatchResult where
  candidate_id : Str
  score : Int
  summary : Str
  strengths : List Str
  gaps : List Str
  reasoning : Str
  skills : List Str
deriving DecidableEq

/-- Code-point comparison of strings, as Python compares the sorted glob
file names. -/
def strLe : Str → Str → Bool
  | [], _ => true
  | _ :: _, [] => false
  | a :: as, b :: bs => if a = b then strLe as bs else decide (a < b)

theorem strLe_total : ∀ x y : Str, strLe x y = true ∨ strLe y x = true
  | [], _ => Or.inl rfl
  | _ :: _, [] => Or.inr rfl
  | a :: as, b :: bs => by
    by_cases hab : a = b
    · subst hab
      rcases strLe_total as bs with h | h
      · exact Or.inl (by simpa [strLe] using h)
      · exact Or.inr (by simpa [strLe] using h)
    · have hba : ¬b = a := fun e => hab e.symm
      rcases Ne.lt_or_lt hab with h | h
      · exact Or.inl (by simp [strLe, hab, h])
      · exact Or.inr (by simp [strLe, hba, h])

theorem strLe_trans : ∀ x y z : Str, strLe x y = true → strLe y z = true → strLe x z = true
  | [], _, _, _, _ => rfl
  | _ :: _, [], _, h1, _ => by cases h1
  | _ :: _, _ :: _, [], _, h2 => by cases h2
  | a :: as, b :: bs, c :: cs, h1, h2 => by
    by_cases hab : a = b <;> by_cases hbc : b = c
    · subst hab; subst hbc
      simp only [strLe, if_pos rfl] at h1 h2 ⊢
      exact strLe_trans as bs cs h1 h2
    · subst hab
      simp only [strLe, if_neg hbc, decide_eq_true_eq] at h2
      simp [strLe, hbc, h2]
    · subst hbc
      simp only [strLe, if_neg hab, decide_eq_true_eq] at h1
      simp [strLe, hab, h1]
    · simp only [strLe, if_neg hab, decide_eq_true_eq] at h1
      simp only [strLe, if_neg hbc, decide_eq_true_eq] at h2
      have hac := h1.trans h2
      simp [strLe, hac.ne, hac]

/-- The file name a record was loaded from. -/
def recFileName (r : ResumeRecord) : Str := r.id ++ ".json".toList

/-- Canonical order: `sorted(JSON_PATH.glob("*.json"))`. -/
def fileLe (a b : ResumeRecord) : Prop := strLe (recFileName a) (recFileName b) = true

instance : DecidableRel fileLe := fun _ _ => inferInstanceAs (Decidable (_ = true))

instance : IsTotal ResumeRecord fileLe := ⟨fun _ _ => strLe_total _ _⟩

instance : IsTrans ResumeRecord fileLe := ⟨fun _ _ _ h1 h2 => strLe_trans _ _ _ h1 h2⟩

def canonicalSorted (corpus : List ResumeRecord) : List ResumeRecord :=
  corpus.insertionSort fileLe

/-- The candidate selection of `match_top_candidates`: on a successful
retrieval with a non-empty id list, the existing records for those ids (in
retrieval order, capped to `n`); on a failed retrieval (`none`) or an empty
id list (falsy in `if candidate_ids:`), the first `n` files in canonical
sorted order. -/
def selectedRecords (corpus : List ResumeRecord) (sel : Option (List Str)) (n : Nat) :
    List ResumeRecord :=
  match sel with
  | some ids =>
    if ids.isEmpty then (canonicalSorted corpus).take n
    else (ids.filterMap (fun cid => corpus.find? (fun r => decide (r.id = cid)))).take n
  | none => (canonicalSorted corpus).take n

/-- Final ordering of match results: descending by score (Python's stable
sort on key `-score`). -/
def mrScoreDesc (a b : MatchResult) : Prop := b.score ≤ a.score

instance : DecidableRel mrScoreDesc := fun a b => inferInstanceAs (Decidable (b.score ≤ a.score))

instance : IsTotal MatchResult mrScoreDesc := ⟨fun a b => le_total b.score a.score⟩

instance : IsTrans MatchResult mrScoreDesc := ⟨fun _ _ _ h1 h2 => le_trans h2 h1⟩

/-- The per-candidate body of the scoring loop: skip a candidate whose
composed resume text strips to empty, otherwise score it (collaborator
`llm i` for loop position `i`, `retries = 2` as at the call site) and copy
the validated fields plus the record's skills. -/
def matchOne (llm : Nat → Nat → LLMResp) (p : Nat × ResumeRecord) : Option MatchResult :=
  if (pyStrip (buildResumeTextMatch p.2.sections)).isEmpty then none
  else
    match scoreResume (llm p.1) 2 with
    | some sr => some ⟨p.2.id, sr.score, sr.summary, sr.strengths, sr.gaps, sr.reasoning,
        p.2.sections.skills⟩
    | none => none

/-- `match_top_candidates` from scripts/match_resumes.py. -/
def matchTopCandidates (corpus : List ResumeRecord) (sel : Option (List Str)) (n : Nat)
    (llm : Nat → Nat → LLMResp) : List MatchResult :=
  (((selectedRecords corpus sel n).enum.filterMap (matchOne llm)).insertionSort mrScoreDesc)

theorem scoreResume_two_isSome (f : Nat → LLMResp) : (scoreResume f 2).isSome = true := by
  unfold scoreResume scoreResumeGo
  cases f 0 with
  | ok o => rfl
  | jsonError e =>
    simp only [Nat.lt_irrefl, if_pos (by omega : 0 < 1)]
    unfold scoreResumeGo
    cases f 1 with
    | ok o => rfl
    | jsonError e2 => simp
    | otherError e2 => simp
  | otherError e =>
    simp only [Nat.lt_irrefl, if_pos (by omega : 0 < 1)]
    unfold scoreResumeGo
    cases f 1 with
    | ok o => rfl
    | jsonError e2 => simp
    | otherError e2 => simp

theorem matchLoop_ids (llm : Nat → Nat → LLMResp) :
    ∀ (files : List ResumeRecord) (i0 : Nat),
      ((files.enumFrom i0).filterMap (matchOne llm)).map MatchResult.candidate_id =
        (files.filter
          (fun r => !(pyStrip (buildResumeTextMatch r.sections)).isEmpty)).map
            ResumeRecord.id
  | [], _ => rfl
  | r :: fs, i0 => by
    rw [List.enumFrom_cons, List.filterMap_cons, List.filter_cons]
    by_cases he : (pyStrip (buildResumeTextMatch r.sections)).isEmpty = true
    · have hnone : matchOne llm (i0, r) = none := by
        unfold matchOne
        rw [if_pos he]
      rw [hnone]
      simp only [he, Bool.not_true, Bool.false_eq_true, if_false]
      exact matchLoop_ids llm fs (i0 + 1)
    · obtain ⟨sr, hsr⟩ := Option.isSome_iff_exists.mp (scoreResume_two_isSome (llm i0))
      have hsome : matchOne llm (i0, r) = some ⟨r.id, sr.score, sr.summary, sr.strengths,
          sr.gaps, sr.reasoning, r.sections.skills⟩ := by
        unfold matchOne
        rw [if_neg he]
        simp only []
        rw [hsr]
      rw [hsome]
      simp only [List.map_cons, he, Bool.not_false, if_pos, List.map_cons]
      rw [matchLoop_ids llm fs (i0 + 1)]

/-- Claim C1: `score_resume` always returns a complete result and never
raises: it is total for the call-site retry bound of 2; when every attempt
fails to parse it returns the placeholder with score 0, gaps
`["Could not analyze resume"]` and a reasoning string embedding the (last)
parse error truncated to 50 characters; when a parse succeeds each missing
field is defaulted (score→50, reasoning→fixed placeholder,
strengths/gaps→[], summary→"Match score: score/100" from the defaulted
score); consequently `match_top_candidates` produces exactly one
MatchResult per attempted candidate (the selected records whose composed
text does not strip to empty) and never aborts the ranking. -/
theorem c1_score_resume_total :
    (∀ f : Nat → LLMResp, (scoreResume f 2).isSome = true) ∧
    (∀ errs : Nat → Str,
      scoreResume (fun i => LLMResp.jsonError (errs i)) 2 =
        some ⟨0, "Error parsing AI response".toList, [],
          ["Could not analyze resume".toList],
          "JSON parsing error: ".toList ++ (errs 1).take 50⟩) ∧
    (∀ (o : JObj) (rest : Nat → LLMResp),
      scoreResume (fun i => if i = 0 then LLMResp.ok o else rest i) 2 =
        some { score := o.score.getD 50,
               summary := o.summary.getD ("Match score: ".toList ++
                 intToStr (o.score.getD 50) ++ "/100".toList),
               strengths := o.strengths.getD [],
               gaps := o.gaps.getD [],
               reasoning := o.reasoning.getD
                 ("Unable to generate detailed reasoning.".toList) }) ∧
    (∀ (corpus : List ResumeRecord) (sel : Option (List Str)) (n : Nat)
        (llm : Nat → Nat → LLMResp),
      ((matchTopCandidates corpus sel n llm).map MatchResult.candidate_id).Perm
        (((selectedRecords corpus sel n).filter
          (fun r => !(pyStrip (buildResumeTextMatch r.sections)).isEmpty)).map
            ResumeRecord.id)) := by
  refine ⟨scoreResume_two_isSome, ?_, ?_, ?_⟩
  · intro errs
    rfl
  · intro o rest
    rfl
  · intro corpus sel n llm
    have hperm := (List.perm_insertionSort mrScoreDesc
      (((selectedRecords corpus sel n).enum).filterMap (matchOne llm))).map
        MatchResult.candidate_id
    unfold matchTopCandidates
    refine hperm.trans ?_
    rw [List.enum, matchLoop_ids llm (selectedRecords corpus sel n) 0]

/-- Claim C10: a retrieval call that succeeds but returns an empty id list
is treated exactly like a retrieval failure — the empty list is falsy in
`if candidate_ids:`, so the fallback selects (and the matcher scores) the
first `n` records in canonical sorted order. -/
theorem c10_empty_retrieval_fallback (corpus : List ResumeRecord) (n : Nat)
    (llm : Nat → Nat → LLMResp) :
    selectedRecords corpus (some []) n = selectedRecords corpus none n ∧
    selectedRecords corpus (some []) n = (canonicalSorted corpus).take n ∧
    matchTopCandidates corpus (some []) n llm = matchTopCandidates corpus none n llm := by
  exact ⟨rfl, rfl, rfl⟩

/-- A seven-record corpus given in scrambled directory-iteration order;
each record composes to non-empty text (it has a skill). -/
def c6Secs : Sections := ⟨[], [], [], ["x".toList], []⟩

def c6Corpus : List ResumeRecord :=
  [⟨"a4".toList, c6Secs⟩, ⟨"a1".toList, c6Secs⟩, ⟨"a7".toList, c6Secs⟩,
   ⟨"a3".toList, c6Secs⟩, ⟨"a6".toList, c6Secs⟩, ⟨"a2".toList, c6Secs⟩,
   ⟨"a5".toList, c6Secs⟩]

/-- Claim C6: when the retrieval collaborator call fails,
`match_top_candidates` falls back to the first `n` records in canonical
(sorted file name) order; on a corpus of 7 records with `n = 5` exactly
the ids a1–a5 are selected and scored, in that order. -/
theorem c6_fallback_selection :
    (∀ (corpus : List ResumeRecord) (n : Nat),
      selectedRecords corpus none n = (corpus.insertionSort fileLe).take n) ∧
    c6Corpus.length = 7 ∧
    (selectedRecords c6Corpus none 5).map ResumeRecord.id =
      ["a1".toList, "a2".toList, "a3".toList, "a4".toList, "a5".toList] ∧
    (matchTopCandidates c6Corpus none 5 (fun _ _ => LLMResp.jsonError ("bad".toList))).map
      MatchResult.candidate_id =
      ["a1".toList, "a2".toList, "a3".toList, "a4".toList, "a5".toList] := by
  refine ⟨fun _ _ => rfl, rfl, by decide, by decide⟩
